import Mathlib

/-!
Shallow embedding of `src/textfinder.js` (Octane/TextFinder).

Strings are modelled as `List Char` (JS strings over BMP code units), DOM
trees as a mutual inductive of text nodes and elements, JS `null` failures
as `Option`, and character indices passed to `getInfo`/`computeRange` as
`Int` (JS numbers; `computeRange` passes `end - 1`, which can be `-1`).

The regular expressions that appear in the source are embedded as follows:
the escape regex and the strip/split regexes of `createSearchPattern` are
reproduced as direct character-class operations (including the source's
`਀` code point, which is what the strip/split classes actually
contain), and the patterns produced by `createSearchPattern` - sequences
of literal characters, identity escapes `\c`, and the joiner class
`[\s ]+` - are interpreted by `parsePattern`/`matchTokens`.  For
these patterns a greedy left-to-right scan without backtracking agrees
with the JS engine, because the pattern tokens adjacent to a `[\s ]+`
block are never whitespace characters.  The exec loop of `find` is
embedded with an explicit fuel of `text.length + 2`, which bounds the
number of loop iterations: every iteration resumes the scan at
`previous match start + 1`, so at most `text.length + 2` calls occur.
Case-insensitive comparison models the engine's ASCII case canonication
(`toUpperCase`); all searched texts here are within that range.
-/

/-- The ECMAScript `\s` character class (WhiteSpace and LineTerminator
code points), used by the JS regexes in `createSearchPattern`. -/
def isSpaceJS (c : Char) : Bool :=
  c.toNat = 9 || c.toNat = 10 || c.toNat = 11 || c.toNat = 12 || c.toNat = 13 ||
  c.toNat = 32 || c.toNat = 0xA0 || c.toNat = 0x1680 ||
  (0x2000 ≤ c.toNat && c.toNat ≤ 0x200A) ||
  c.toNat = 0x2028 || c.toNat = 0x2029 || c.toNat = 0x202F ||
  c.toNat = 0x205F || c.toNat = 0x3000 || c.toNat = 0xFEFF

/-- The class `[\s਀]` used by the strip and split regexes of
`createSearchPattern` (the source writes `਀`, not ` `). -/
def isStripSpace (c : Char) : Bool :=
  isSpaceJS c || c.toNat = 0x0A00

/-- The class `[\s ]` of the joiner sub-pattern that
`createSearchPattern` inserts between tokens. -/
def isMatchSpace (c : Char) : Bool :=
  isSpaceJS c || c.toNat = 0x00A0

/-- The characters captured by the escape regex
`([?!^$.(){}:|=[\]+\-\/\\*])` of `escape`. -/
def reservedChars : List Char := "?!^$.(){}:|=[]+-/\\*".toList

/-- Membership in the reserved set of `escape`. -/
def isReserved (c : Char) : Bool := reservedChars.contains c

/-- `TextFinder.prototype.escape`: prefixes every reserved character with
a backslash (`str.replace(/([?!^$.(){}:|=[\]+\-\/\\*])/g, '\\$1')`). -/
def escape (str : List Char) : List Char :=
  str.flatMap fun c => if isReserved c then ['\\', c] else [c]

/-- Removal of the maximal trailing `[\s਀]+` run (the `[\s਀]+$`
alternative of the strip regex). -/
def dropTrailingRun (l : List Char) : List Char :=
  (l.reverse.dropWhile isStripSpace).reverse

/-- `.replace(/^[\s਀]+|[\s਀]+$/, '')` - the regex has no `g`
flag, so only the first match of the alternation is removed: the leading
whitespace run when the string starts with one, otherwise the maximal
trailing run. -/
def stripEnds (l : List Char) : List Char :=
  match l.head? with
  | some c => if isStripSpace c then l.dropWhile isStripSpace else dropTrailingRun l
  | none => l

/-- `.split(/[\s਀]+/)`: splits on maximal whitespace runs, keeping
the empty pieces that JS `split` produces at the edges. -/
def splitWs : List Char → List (List Char)
  | [] => [[]]
  | c :: rest =>
    if isStripSpace c then
      if (match rest with | d :: _ => isStripSpace d | [] => false) then
        splitWs rest
      else
        [] :: splitWs rest
    else
      match splitWs rest with
      | [] => [[c]]
      | t :: ts => (c :: t) :: ts

/-- The joiner sub-pattern `[\s ]+` as pattern-source characters. -/
def joiner : List Char := "[\\s\\u00A0]+".toList

/-- `TextFinder.prototype.createSearchPattern`:
`escape(text).replace(/^[\s਀]+|[\s਀]+$/, '').split(/[\s਀]+/).join('[\\s\\u00A0]+')`. -/
def createSearchPattern (text : List Char) : List Char :=
  List.intercalate joiner (splitWs (stripEnds (escape text)))

/-- An atom of the pattern sublanguage produced by `createSearchPattern`:
a literal character or the `[\s ]+` joiner block. -/
inductive PatAtom where
  | lit (c : Char)
  | wsPlus
deriving DecidableEq

/-- Interpretation of the pattern strings produced by
`createSearchPattern` into atoms: the joiner class `[\s ]+`, identity
escapes `\c` of reserved characters, and plain literal characters.  Any
construct outside this sublanguage is rejected (such a pattern is never
produced by `createSearchPattern`). -/
def parsePattern : List Char → Option (List PatAtom)
  | [] => some []
  | '[' :: '\\' :: 's' :: '\\' :: 'u' :: '0' :: '0' :: 'A' :: '0' :: ']' :: '+' :: rest =>
    (parsePattern rest).map (PatAtom.wsPlus :: ·)
  | '\\' :: c :: rest =>
    if isReserved c then (parsePattern rest).map (PatAtom.lit c :: ·) else none
  | c :: rest =>
    if isReserved c then none else (parsePattern rest).map (PatAtom.lit c :: ·)

/-- Length of the maximal `[\s ]` run of `cs` starting at `pos`. -/
def wsRunLen (cs : List Char) (pos : Nat) : Nat :=
  ((cs.drop pos).takeWhile isMatchSpace).length

/-- ASCII case canonication used by the `i` flag (JS `Canonicalize`,
i.e. `toUpperCase`, restricted to the ASCII letters). -/
def canonChar (c : Char) : Char :=
  if 97 ≤ c.toNat ∧ c.toNat ≤ 122 then Char.ofNat (c.toNat - 32) else c

/-- Character comparison, case-insensitively when `ci` is true. -/
def charMatch (ci : Bool) (a b : Char) : Bool :=
  if ci then canonChar a == canonChar b else a == b

/-- Matching the atom sequence against `cs` at position `pos`, returning
the end position of the match.  Greedy scan: each `[\s ]+` block
consumes the maximal whitespace run, which agrees with the backtracking
engine because the atom after such a block is never a whitespace
character in a pattern produced by `createSearchPattern`. -/
def matchTokens (ci : Bool) (cs : List Char) : List PatAtom → Nat → Option Nat
  | [], pos => some pos
  | .lit c :: atoms, pos =>
    match cs[pos]? with
    | some c2 => if charMatch ci c c2 then matchTokens ci cs atoms (pos + 1) else none
    | none => none
  | .wsPlus :: atoms, pos =>
    let n := wsRunLen cs pos
    if n = 0 then none else matchTokens ci cs atoms (pos + n)

/-- Scan for the leftmost match at a start position in `[pos, pos + k)`. -/
def findFromAux (ci : Bool) (cs : List Char) (atoms : List PatAtom) :
    Nat → Nat → Option (Nat × Nat)
  | 0, _ => none
  | k + 1, pos =>
    match matchTokens ci cs atoms pos with
    | some e => some (pos, e)
    | none => findFromAux ci cs atoms k (pos + 1)

/-- `regexp.exec` from `lastIndex = pos`: the leftmost match whose start
position lies in `[pos, cs.length]`; `none` when `pos > cs.length`. -/
def findFrom (ci : Bool) (cs : List Char) (atoms : List PatAtom) (pos : Nat) :
    Option (Nat × Nat) :=
  findFromAux ci cs atoms (cs.length + 1 - pos) pos

/-- The exec loop of `TextFinder.prototype.find`: report the match
`[s, e)`, then resume the scan from `s + 1`
(`regexp.lastIndex -= length - 1`). -/
def findLoop (ci : Bool) (cs : List Char) (atoms : List PatAtom) :
    Nat → Nat → List (Nat × Nat)
  | 0, _ => []
  | fuel + 1, pos =>
    match findFrom ci cs atoms pos with
    | none => []
    | some (s, e) => (s, e) :: findLoop ci cs atoms fuel (s + 1)

/-- All flat-text match ranges produced by the exec loop of `find`. -/
def findRanges (atoms : List PatAtom) (ci : Bool) (cs : List Char) : List (Nat × Nat) :=
  findLoop ci cs atoms (cs.length + 2) 0

mutual
/-- A DOM node: a text node (with an identity standing for the JS object
reference and its `nodeValue`), or an element with its `offsetWidth`
visibility (truthiness) and its `childNodes`. -/
inductive DomNode where
  | textNode (id : Nat) (nodeValue : List Char)
  | element (offsetWidth : Bool) (childNodes : NodeList)
/-- An ordered `childNodes` sequence. -/
inductive NodeList where
  | nil
  | cons (head : DomNode) (tail : NodeList)
end

/-- `node.hasChildNodes()`. -/
def NodeList.hasChildNodes : NodeList → Bool
  | .nil => false
  | .cons _ _ => true

/-- A reference to a text node (identity plus its `nodeValue`). -/
structure TextNodeRef where
  id : Nat
  nodeValue : List Char
deriving DecidableEq

/-- An entry of `this.textNodes`: the text node and the index one past
its last character relative to the whole collected text. -/
structure NodeInfo where
  node : TextNodeRef
  characterInterval : Nat
deriving DecidableEq

/-- The state a `TextFinder` instance holds after construction:
`this.text` and `this.textNodes`. -/
structure TextFinder where
  text : List Char
  textNodes : List NodeInfo
deriving DecidableEq

mutual
/-- One iteration of the `collect` walk of
`TextFinder.prototype.collectTextNodes`: a text node with non-empty value
appends its text and records `{node, characterInterval: str.length}`; an
element recurses into its children when `node.hasChildNodes() &&
node.offsetWidth`. -/
def collectStep (acc : List Char × List NodeInfo) : DomNode → List Char × List NodeInfo
  | .textNode id v =>
    if v = [] then acc
    else (acc.1 ++ v, acc.2 ++ [⟨⟨id, v⟩, (acc.1 ++ v).length⟩])
  | .element w ch =>
    if ch.hasChildNodes && w then collectChildren acc ch else acc
/-- The `while` loop over `element.childNodes` inside `collect`. -/
def collectChildren (acc : List Char × List NodeInfo) : NodeList → List Char × List NodeInfo
  | .nil => acc
  | .cons n rest => collectChildren (collectStep acc n) rest
end

/-- `node.childNodes` (a text node has none). -/
def childNodesOf : DomNode → NodeList
  | .textNode _ _ => .nil
  | .element _ ch => ch

/-- `TextFinder.prototype.collectTextNodes` applied to `rootContainer`
(also the constructor): walks the children of the root and stores
`this.text` and `this.textNodes`. -/
def collectTextNodes (rootContainer : DomNode) : TextFinder :=
  let r := collectChildren ([], []) (childNodesOf rootContainer)
  ⟨r.1, r.2⟩

/-- The `while` loop of `TextFinder.prototype.getInfo` over a node list. -/
def getInfoList : List NodeInfo → Int → Option NodeInfo
  | [], _ => none
  | r :: rest, i =>
    if i < (r.characterInterval : Int) then some r else getInfoList rest i

/-- `TextFinder.prototype.getInfo`: the first stored entry whose
`characterInterval` exceeds `characterIndex`, else `null`. -/
def getInfo (tf : TextFinder) (characterIndex : Int) : Option NodeInfo :=
  getInfoList tf.textNodes characterIndex

/-- The object returned by `TextFinder.prototype.computeRange`. -/
structure RangeInfo where
  startContainer : TextNodeRef
  endContainer : TextNodeRef
  startOffset : Int
  endOffset : Int
deriving DecidableEq

/-- `TextFinder.prototype.computeRange`: resolves the flat range
`[start, end)` through `getInfo(start)` and `getInfo(end - 1)`; a `null`
from `getInfo` makes the JS code throw on `startContainer.node`, which is
modelled as `none`. -/
def computeRange (tf : TextFinder) (start finish : Int) : Option RangeInfo :=
  match getInfo tf start, getInfo tf (finish - 1) with
  | some sc, some ec =>
    some ⟨sc.node, ec.node,
          start - (sc.characterInterval : Int) + (sc.node.nodeValue.length : Int),
          finish - (ec.characterInterval : Int) + (ec.node.nodeValue.length : Int)⟩
  | _, _ => none

/-- The `ranges.push(this.computeRange(...))` sequence of the exec loop:
a throw inside `computeRange` aborts `find` with no result. -/
def resolveAll (tf : TextFinder) : List (Nat × Nat) → Option (List RangeInfo)
  | [] => some []
  | (s, e) :: rest =>
    match computeRange tf (s : Int) (e : Int) with
    | none => none
    | some r =>
      match resolveAll tf rest with
      | none => none
      | some rs => some (r :: rs)

/-- `TextFinder.prototype.find`: builds the pattern (flags `g` when
`caseSensitive`, else `gi`), runs the exec loop and resolves every match
range.  `none` models an uncaught JS exception. -/
def TextFinder.find (tf : TextFinder) (searchText : List Char) (caseSensitive : Bool) :
    Option (List RangeInfo) :=
  match parsePattern (createSearchPattern searchText) with
  | none => none
  | some atoms => resolveAll tf (findRanges atoms (!caseSensitive) tf.text)

/-- The cumulative end offset after a node list: the last
`characterInterval`, or the base `c` when the list is empty. -/
def chainEnd (c : Nat) : List NodeInfo → Nat
  | [] => c
  | r :: rest => chainEnd r.characterInterval rest

/-- The last `characterInterval` of the stored node list, or `0`. -/
def lastInterval (l : List NodeInfo) : Nat := chainEnd 0 l

/-- The bookkeeping invariant of `this.textNodes` relative to a base
offset `c`: every entry holds a non-empty text and its
`characterInterval` is the running sum of the text lengths. -/
def Chained (c : Nat) : List NodeInfo → Prop
  | [] => True
  | r :: rest =>
    r.node.nodeValue ≠ [] ∧
    r.characterInterval = c + r.node.nodeValue.length ∧
    Chained r.characterInterval rest

/-- The invariant tying an accumulator of the `collect` walk together:
the recorded intervals are chained from `0` and the collected text length
is exactly the last interval. -/
def AccInv (acc : List Char × List NodeInfo) : Prop :=
  Chained 0 acc.2 ∧ acc.1.length = chainEnd 0 acc.2

-- Concrete trees used by the claims.

/-- Tree with visible leaves `"Hello"`, `" "`, `"world!"`. -/
def root8 : DomNode :=
  .element true (.cons (.textNode 1 "Hello".toList)
    (.cons (.textNode 2 " ".toList)
      (.cons (.textNode 3 "world!".toList) .nil)))

/-- Finder over `root8`. -/
def tf8 : TextFinder := collectTextNodes root8

/-- Tree with the single visible leaf `"aaa"`. -/
def rootAAA : DomNode := .element true (.cons (.textNode 1 "aaa".toList) .nil)

/-- Finder over `rootAAA`. -/
def tfAAA : TextFinder := collectTextNodes rootAAA

/-- Tree with the single visible leaf `"ab"`. -/
def rootAB : DomNode := .element true (.cons (.textNode 1 "ab".toList) .nil)

/-- Finder over `rootAB`. -/
def tfAB : TextFinder := collectTextNodes rootAB

/-- Tree with the single visible leaf `"a"`. -/
def rootA : DomNode := .element true (.cons (.textNode 1 "a".toList) .nil)

/-- Finder over `rootA`. -/
def tfA : TextFinder := collectTextNodes rootA

/-- Tree with the single visible leaf `"pi = 3.14 exactly"`. -/
def rootPi : DomNode := .element true (.cons (.textNode 1 "pi = 3.14 exactly".toList) .nil)

/-- Finder over `rootPi`. -/
def tfPi : TextFinder := collectTextNodes rootPi

/-- Tree with the single visible leaf `"pi = 3x14 exactly"`. -/
def rootPiX : DomNode := .element true (.cons (.textNode 1 "pi = 3x14 exactly".toList) .nil)

/-- Finder over `rootPiX`. -/
def tfPiX : TextFinder := collectTextNodes rootPiX

/-- Tree with the single visible leaf `'a' :: w ++ ['b']` for a
whitespace run `w`. -/
def rootRun (w : List Char) : DomNode :=
  .element true (.cons (.textNode 1 ('a' :: (w ++ ['b']))) .nil)

/-- The match that `find("hello world", false)` resolves over `root8`. -/
def resHello : RangeInfo := ⟨⟨1, "Hello".toList⟩, ⟨3, "world!".toList⟩, 0, 5⟩

/-- The match that `find("a", false)` resolves over `rootAB`. -/
def resAB : RangeInfo := ⟨⟨1, "ab".toList⟩, ⟨1, "ab".toList⟩, 0, 1⟩

-- Chain bookkeeping lemmas.

theorem chainEnd_snoc (c : Nat) (l : List NodeInfo) (r : NodeInfo) :
    chainEnd c (l ++ [r]) = r.characterInterval := by
  induction l generalizing c with
  | nil => rfl
  | cons x rest ih => simpa [chainEnd] using ih x.characterInterval

theorem chained_snoc (c : Nat) (l : List NodeInfo) (n : TextNodeRef)
    (hv : n.nodeValue ≠ []) :
    Chained c l → Chained c (l ++ [⟨n, chainEnd c l + n.nodeValue.length⟩]) := by
  induction l generalizing c with
  | nil => intro _; exact ⟨hv, rfl, trivial⟩
  | cons x rest ih =>
    intro h
    obtain ⟨h1, h2, h3⟩ := h
    exact ⟨h1, h2, ih x.characterInterval h3⟩

theorem chainEnd_ge {c : Nat} {l : List NodeInfo} (h : Chained c l) :
    c ≤ chainEnd c l := by
  induction l generalizing c with
  | nil => exact Nat.le_refl c
  | cons x rest ih =>
    obtain ⟨h1, h2, h3⟩ := h
    have hx := ih h3
    have : c ≤ x.characterInterval := by omega
    exact this.trans hx

theorem chained_mem_gt {c : Nat} {l : List NodeInfo} (h : Chained c l) :
    ∀ r ∈ l, c < r.characterInterval := by
  induction l generalizing c with
  | nil => simp
  | cons x rest ih =>
    obtain ⟨h1, h2, h3⟩ := h
    intro r hr
    have hlen : 0 < x.node.nodeValue.length := List.length_pos.2 h1
    rcases List.mem_cons.1 hr with rfl | hr
    · omega
    · have := ih h3 r hr
      omega

theorem chained_mem_le {c : Nat} {l : List NodeInfo} (h : Chained c l) :
    ∀ r ∈ l, r.characterInterval ≤ chainEnd c l := by
  induction l generalizing c with
  | nil => simp
  | cons x rest ih =>
    obtain ⟨h1, h2, h3⟩ := h
    intro r hr
    rcases List.mem_cons.1 hr with rfl | hr
    · exact chainEnd_ge h3
    · exact ih h3 r hr

theorem chained_pairwise {c : Nat} {l : List NodeInfo} (h : Chained c l) :
    l.Pairwise (fun a b => a.characterInterval < b.characterInterval) := by
  induction l generalizing c with
  | nil => exact List.Pairwise.nil
  | cons x rest ih =>
    obtain ⟨h1, h2, h3⟩ := h
    exact List.Pairwise.cons (fun r hr => chained_mem_gt h3 r hr) (ih h3)

-- The collect walk preserves the accumulator invariant.

mutual
theorem collectStep_inv (n : DomNode) :
    ∀ acc, AccInv acc → AccInv (collectStep acc n) := by
  cases n with
  | textNode id v =>
    intro acc h
    by_cases hv : v = []
    · simpa [collectStep, hv] using h
    · obtain ⟨hc, hl⟩ := h
      have hint : (acc.1 ++ v).length = chainEnd 0 acc.2 + v.length := by
        simp [List.length_append, hl]
      constructor
      · show Chained 0 (collectStep acc (.textNode id v)).2
        simp only [collectStep, hv, if_false]
        have := chained_snoc 0 acc.2 ⟨id, v⟩ hv hc
        simpa [hint] using this
      · show (collectStep acc (.textNode id v)).1.length =
          chainEnd 0 (collectStep acc (.textNode id v)).2
        simp only [collectStep, hv, if_false]
        rw [chainEnd_snoc]
  | element w ch =>
    intro acc h
    by_cases hcw : ch.hasChildNodes && w
    · simp only [collectStep, hcw, if_true]
      exact collectChildren_inv ch acc h
    · simpa [collectStep, hcw] using h

theorem collectChildren_inv (ns : NodeList) :
    ∀ acc, AccInv acc → AccInv (collectChildren acc ns) := by
  cases ns with
  | nil => intro acc h; simpa [collectChildren] using h
  | cons n rest =>
    intro acc h
    show AccInv (collectChildren (collectStep acc n) rest)
    exact collectChildren_inv rest _ (collectStep_inv n acc h)
end

theorem collectTextNodes_inv (root : DomNode) :
    Chained 0 (collectTextNodes root).textNodes ∧
    (collectTextNodes root).text.length = lastInterval (collectTextNodes root).textNodes := by
  have h := collectChildren_inv (childNodesOf root) ([], []) ⟨trivial, rfl⟩
  obtain ⟨h1, h2⟩ := h
  exact ⟨h1, h2⟩

-- getInfo lemmas.

theorem getInfoList_eq_find (l : List NodeInfo) (i : Int) :
    getInfoList l i = l.find? (fun r => decide (i < (r.characterInterval : Int))) := by
  induction l with
  | nil => rfl
  | cons x rest ih =>
    by_cases h : i < (x.characterInterval : Int)
    · simp [getInfoList, List.find?, h]
    · simp [getInfoList, List.find?, h, ih]

theorem getInfoList_none {l : List NodeInfo} {i : Int}
    (h : ∀ r ∈ l, ¬ i < (r.characterInterval : Int)) : getInfoList l i = none := by
  induction l with
  | nil => rfl
  | cons x rest ih =>
    have hx := h x (List.mem_cons_self x rest)
    simp only [getInfoList, if_neg hx]
    exact ih fun r hr => h r (List.mem_cons_of_mem x hr)

theorem getInfo_some_bounds {c : Nat} {l : List NodeInfo} {i : Int} {r : NodeInfo}
    (hch : Chained c l) (hc : (c : Int) ≤ i) (h : getInfoList l i = some r) :
    (r.characterInterval : Int) - (r.node.nodeValue.length : Int) ≤ i ∧
      i < (r.characterInterval : Int) := by
  induction l generalizing c with
  | nil => simp [getInfoList] at h
  | cons x rest ih =>
    obtain ⟨h1, h2, h3⟩ := hch
    by_cases hx : i < (x.characterInterval : Int)
    · simp only [getInfoList, if_pos hx] at h
      obtain rfl := Option.some_injective _ h
      refine ⟨?_, hx⟩
      rw [h2]
      push_cast
      omega
    · simp only [getInfoList, if_neg hx] at h
      exact ih h3 (by omega) h

-- Matcher lemmas.

theorem takeWhile_length_le (p : Char → Bool) (l : List Char) :
    (l.takeWhile p).length ≤ l.length := by
  induction l with
  | nil => exact Nat.le_refl 0
  | cons c rest ih =>
    by_cases h : p c
    · simpa [List.takeWhile_cons, h] using Nat.succ_le_succ ih
    · simp [List.takeWhile_cons, h]

theorem wsRunLen_le (cs : List Char) (pos : Nat) :
    wsRunLen cs pos ≤ cs.length - pos := by
  unfold wsRunLen
  calc ((cs.drop pos).takeWhile isMatchSpace).length
      ≤ (cs.drop pos).length := takeWhile_length_le isMatchSpace (cs.drop pos)
    _ = cs.length - pos := cs.length_drop pos

theorem matchTokens_bounds {ci : Bool} {cs : List Char} :
    ∀ {atoms : List PatAtom} {pos e : Nat}, pos ≤ cs.length →
      matchTokens ci cs atoms pos = some e →
      pos ≤ e ∧ e ≤ cs.length ∧ (atoms ≠ [] → pos < e) := by
  intro atoms
  induction atoms with
  | nil =>
    intro pos e hp h
    obtain rfl : pos = e := Option.some_injective _ h
    exact ⟨Nat.le_refl pos, hp, fun hne => absurd rfl hne⟩
  | cons a atoms ih =>
    intro pos e hp h
    cases a with
    | lit c =>
      cases hcs : cs[pos]? with
      | none => simp [matchTokens, hcs] at h
      | some c2 =>
        have hlt : pos < cs.length := by
          by_contra hge
          rw [List.getElem?_eq_none (by omega)] at hcs
          exact Option.noConfusion hcs
        by_cases hm : charMatch ci c c2
        · simp only [matchTokens, hcs, if_pos hm] at h
          obtain ⟨g1, g2, _⟩ := ih (by omega) h
          exact ⟨by omega, g2, fun _ => by omega⟩
        · simp [matchTokens, hcs, hm] at h
    | wsPlus =>
      simp only [matchTokens] at h
      by_cases hn : wsRunLen cs pos = 0
      · simp [hn] at h
      · have hle := wsRunLen_le cs pos
        simp only [if_neg hn] at h
        obtain ⟨g1, g2, _⟩ := ih (by omega) h
        exact ⟨by omega, g2, fun _ => by omega⟩

theorem findFromAux_spec {ci : Bool} {cs : List Char} {atoms : List PatAtom} :
    ∀ {k pos s e : Nat}, findFromAux ci cs atoms k pos = some (s, e) →
      pos ≤ s ∧ s < pos + k ∧ matchTokens ci cs atoms s = some e := by
  intro k
  induction k with
  | zero => intro pos s e h; simp [findFromAux] at h
  | succ k ih =>
    intro pos s e h
    unfold findFromAux at h
    cases hm : matchTokens ci cs atoms pos with
    | some e' =>
      rw [hm] at h
      obtain ⟨rfl, rfl⟩ : pos = s ∧ e' = e := by
        have := Option.some_injective _ h
        exact ⟨congrArg Prod.fst this, congrArg Prod.snd this⟩
      exact ⟨Nat.le_refl _, by omega, hm⟩
    | none =>
      rw [hm] at h
      obtain ⟨h1, h2, h3⟩ := ih h
      exact ⟨by omega, by omega, h3⟩

theorem findFrom_spec {ci : Bool} {cs : List Char} {atoms : List PatAtom}
    {pos s e : Nat} (h : findFrom ci cs atoms pos = some (s, e)) :
    pos ≤ s ∧ s ≤ cs.length ∧ matchTokens ci cs atoms s = some e := by
  unfold findFrom at h
  obtain ⟨h1, h2, h3⟩ := findFromAux_spec h
  refine ⟨h1, ?_, h3⟩
  by_cases hp : pos ≤ cs.length + 1
  · omega
  · exfalso
    have hk : cs.length + 1 - pos = 0 := by omega
    rw [hk] at h
    simp [findFromAux] at h

theorem findLoop_mem {ci : Bool} {cs : List Char} {atoms : List PatAtom} :
    ∀ {fuel pos s e : Nat}, (s, e) ∈ findLoop ci cs atoms fuel pos →
      pos ≤ s ∧ s ≤ cs.length ∧ matchTokens ci cs atoms s = some e := by
  intro fuel
  induction fuel with
  | zero => intro pos s e h; simp [findLoop] at h
  | succ fuel ih =>
    intro pos s e h
    unfold findLoop at h
    cases hf : findFrom ci cs atoms pos with
    | none => rw [hf] at h; simp at h
    | some se =>
      obtain ⟨s', e'⟩ := se
      rw [hf] at h
      rcases List.mem_cons.1 h with heq | h
      · obtain ⟨rfl, rfl⟩ : s' = s ∧ e' = e := by
          have h1 := congrArg Prod.fst heq
          have h2 := congrArg Prod.snd heq
          exact ⟨h1.symm, h2.symm⟩
        exact findFrom_spec hf
      · obtain ⟨h1, h2, h3⟩ := ih h
        obtain ⟨g1, _, _⟩ := findFrom_spec hf
        exact ⟨by omega, h2, h3⟩

theorem findLoop_pairwise (ci : Bool) (cs : List Char) (atoms : List PatAtom) :
    ∀ fuel pos, (findLoop ci cs atoms fuel pos).Pairwise (fun a b => a.1 < b.1) := by
  intro fuel
  induction fuel with
  | zero => intro pos; simp [findLoop]
  | succ fuel ih =>
    intro pos
    unfold findLoop
    cases hf : findFrom ci cs atoms pos with
    | none => exact List.Pairwise.nil
    | some se =>
      obtain ⟨s, e⟩ := se
      refine List.Pairwise.cons ?_ (ih (s + 1))
      intro b hb
      obtain ⟨b1, b2⟩ := b
      obtain ⟨h1, _, _⟩ := findLoop_mem hb
      show s < b1
      omega

-- Pattern parsing and resolution lemmas.

set_option maxHeartbeats 1000000 in
theorem parsePattern_ne_nil {cs : List Char} {atoms : List PatAtom}
    (h : parsePattern cs = some atoms) (hcs : cs ≠ []) : atoms ≠ [] := by
  rw [parsePattern.eq_def] at h
  split at h
  · exact absurd rfl hcs
  · obtain ⟨a, _, rfl⟩ := Option.map_eq_some'.1 h
    simp
  · split at h
    · obtain ⟨a, _, rfl⟩ := Option.map_eq_some'.1 h
      simp
    · exact Option.noConfusion h
  · split at h
    · exact Option.noConfusion h
    · obtain ⟨a, _, rfl⟩ := Option.map_eq_some'.1 h
      simp

theorem resolveAll_mem {tf : TextFinder} :
    ∀ {l : List (Nat × Nat)} {ms : List RangeInfo}, resolveAll tf l = some ms →
      ∀ m ∈ ms, ∃ p ∈ l, computeRange tf (p.1 : Int) (p.2 : Int) = some m := by
  intro l
  induction l with
  | nil =>
    intro ms h m hm
    obtain rfl : ([] : List RangeInfo) = ms := Option.some_injective _ h
    simp at hm
  | cons p rest ih =>
    intro ms h m hm
    obtain ⟨s, e⟩ := p
    unfold resolveAll at h
    cases hcr : computeRange tf (s : Int) (e : Int) with
    | none => rw [hcr] at h; exact Option.noConfusion h
    | some r =>
      rw [hcr] at h
      cases hra : resolveAll tf rest with
      | none => rw [hra] at h; exact Option.noConfusion h
      | some rs =>
        rw [hra] at h
        obtain rfl : r :: rs = ms := Option.some_injective _ h
        rcases List.mem_cons.1 hm with rfl | hm
        · exact ⟨(s, e), List.mem_cons_self _ _, hcr⟩
        · obtain ⟨q, hq, hcq⟩ := ih hra m hm
          exact ⟨q, List.mem_cons_of_mem _ hq, hcq⟩

-- Claim theorems.

/-- C1 (amended): the flat-text match ranges that `find` resolves are in
strictly increasing order of start position (so in left-to-right order
and without duplicates); the overlap-freedom half of the original claim
fails, see the counterexample. -/
theorem c1_amended (atoms : List PatAtom) (ci : Bool) (cs : List Char) :
    (findRanges atoms ci cs).Pairwise (fun a b => a.1 < b.1) :=
  findLoop_pairwise ci cs atoms (cs.length + 2) 0

/-- C1 counterexample: over the single leaf `"aaa"`, `find("aa")`
returns the two flat ranges `[0, 2)` and `[1, 3)`, which overlap
(neither ends at or before the other's start). -/
theorem c1_counterexample :
    parsePattern (createSearchPattern "aa".toList) = some [.lit 'a', .lit 'a'] ∧
    findRanges [.lit 'a', .lit 'a'] true tfAAA.text = [(0, 2), (1, 3)] ∧
    tfAAA.find "aa".toList false =
      some [⟨⟨1, "aaa".toList⟩, ⟨1, "aaa".toList⟩, 0, 2⟩,
            ⟨⟨1, "aaa".toList⟩, ⟨1, "aaa".toList⟩, 1, 3⟩] ∧
    ¬ ((2 : Nat) ≤ 1 ∨ (3 : Nat) ≤ 0) := by decide

/-- C2: a range `[s, e)` (with `0 ≤ s < e`) resolved by `computeRange`
over a finder built from any tree uses the fragment containing the
character at `s` as start fragment and the one containing `e - 1` as end
fragment, and the local offsets are the flat positions minus the
flat-text offset at which the respective fragment's text begins. -/
theorem c2_computeRange (root : DomNode) (s e : Int) (res : RangeInfo)
    (hs : 0 ≤ s) (hse : s < e)
    (h : computeRange (collectTextNodes root) s e = some res) :
    ∃ rs re2,
      getInfo (collectTextNodes root) s = some rs ∧
      getInfo (collectTextNodes root) (e - 1) = some re2 ∧
      res.startContainer = rs.node ∧ res.endContainer = re2.node ∧
      (rs.characterInterval : Int) - (rs.node.nodeValue.length : Int) ≤ s ∧
      s < (rs.characterInterval : Int) ∧
      (re2.characterInterval : Int) - (re2.node.nodeValue.length : Int) ≤ e - 1 ∧
      e - 1 < (re2.characterInterval : Int) ∧
      res.startOffset =
        s - ((rs.characterInterval : Int) - (rs.node.nodeValue.length : Int)) ∧
      res.endOffset =
        e - ((re2.characterInterval : Int) - (re2.node.nodeValue.length : Int)) := by
  obtain ⟨hch, _⟩ := collectTextNodes_inv root
  unfold computeRange at h
  cases hgs : getInfo (collectTextNodes root) s with
  | none => rw [hgs] at h; exact Option.noConfusion h
  | some rs =>
    cases hge : getInfo (collectTextNodes root) (e - 1) with
    | none => rw [hgs, hge] at h; exact Option.noConfusion h
    | some re2 =>
      rw [hgs, hge] at h
      obtain rfl := Option.some_injective _ h
      obtain ⟨b1, b2⟩ :=
        getInfo_some_bounds hch (by exact_mod_cast hs) hgs
      obtain ⟨b3, b4⟩ :=
        getInfo_some_bounds hch (by omega) hge
      refine ⟨rs, re2, rfl, rfl, rfl, rfl, b1, b2, b3, b4, ?_, ?_⟩
      · show s - (rs.characterInterval : Int) + (rs.node.nodeValue.length : Int) =
          s - ((rs.characterInterval : Int) - (rs.node.nodeValue.length : Int))
        omega
      · show e - (re2.characterInterval : Int) + (re2.node.nodeValue.length : Int) =
          e - ((re2.characterInterval : Int) - (re2.node.nodeValue.length : Int))
        omega

/-- C2 witness: the resolution of the flat range `[0, 11)` (the match of
`"hello world"`) over the `["Hello", " ", "world!"]` tree. -/
theorem c2_computeRange_witness :
    ∃ rs re2,
      getInfo (collectTextNodes root8) 0 = some rs ∧
      getInfo (collectTextNodes root8) (11 - 1) = some re2 ∧
      resHello.startContainer = rs.node ∧ resHello.endContainer = re2.node ∧
      (rs.characterInterval : Int) - (rs.node.nodeValue.length : Int) ≤ 0 ∧
      (0 : Int) < (rs.characterInterval : Int) ∧
      (re2.characterInterval : Int) - (re2.node.nodeValue.length : Int) ≤ 11 - 1 ∧
      (11 : Int) - 1 < (re2.characterInterval : Int) ∧
      resHello.startOffset =
        0 - ((rs.characterInterval : Int) - (rs.node.nodeValue.length : Int)) ∧
      resHello.endOffset =
        11 - ((re2.characterInterval : Int) - (re2.node.nodeValue.length : Int)) :=
  c2_computeRange root8 0 11 resHello (by decide) (by decide) (by decide)

/-- C3: there is no empty-pattern guard in the code.  For the
whitespace-only phrase `" "` the built pattern is empty, the exec loop
produces zero-length matches, and `find` aborts with a TypeError (the
`getInfo` result for index `text.length` is `null`), modelled as `none`
- it neither returns an empty sequence nor any match list at all. -/
theorem c3_whitespace_phrase :
    createSearchPattern " ".toList = [] ∧
    tfAB.find " ".toList false = none ∧
    tfAB.find " ".toList false ≠ some [] := by decide

/-- C5: `getInfo` returns the first stored record whose
`characterInterval` strictly exceeds the index, and returns no record
(JS `null`) whenever the index is at least the total flattened length. -/
theorem c5_getInfo (root : DomNode) (i : Int) :
    getInfo (collectTextNodes root) i =
      (collectTextNodes root).textNodes.find?
        (fun r => decide (i < (r.characterInterval : Int))) ∧
    (((collectTextNodes root).text.length : Int) ≤ i →
      getInfo (collectTextNodes root) i = none) := by
  obtain ⟨hch, hlen⟩ := collectTextNodes_inv root
  refine ⟨getInfoList_eq_find _ i, fun hi => ?_⟩
  apply getInfoList_none
  intro r hr
  have h1 := chained_mem_le hch r hr
  have h2 : (collectTextNodes root).text.length =
      chainEnd 0 (collectTextNodes root).textNodes := hlen
  omega

/-- C5 witness: index 20 is past the 12 characters of the
`["Hello", " ", "world!"]` tree, so `getInfo` returns no record. -/
theorem c5_getInfo_witness : getInfo (collectTextNodes root8) 20 = none :=
  (c5_getInfo root8 20).2 (by decide)

/-- C6: flattening any tree skips empty-text leaves (a `collectStep` on
an empty leaf is the identity and every stored record holds non-empty
text), the stored `characterInterval`s are strictly increasing, and the
flattened text's length is the last record's interval (or 0). -/
theorem c6_flatten_invariants (root : DomNode) :
    (collectTextNodes root).textNodes.Pairwise
      (fun a b => a.characterInterval < b.characterInterval) ∧
    (collectTextNodes root).text.length =
      lastInterval (collectTextNodes root).textNodes ∧
    List.Forall (fun r => r.node.nodeValue ≠ [])
      (collectTextNodes root).textNodes ∧
    (∀ acc id, collectStep acc (.textNode id []) = acc) := by
  obtain ⟨hch, hlen⟩ := collectTextNodes_inv root
  have hforall : ∀ (c : Nat) (l : List NodeInfo), Chained c l →
      List.Forall (fun r => r.node.nodeValue ≠ []) l := by
    intro c l
    induction l generalizing c with
    | nil => intro _; trivial
    | cons x rest ih =>
      intro h
      obtain ⟨h1, h2, h3⟩ := h
      exact (List.forall_cons _ x rest).2 ⟨h1, ih _ h3⟩
  exact ⟨chained_pairwise hch, hlen, hforall 0 _ hch,
    fun acc id => by simp [collectStep]⟩

/-- C8: over leaves `["Hello", " ", "world!"]` the flattened text is
`"Hello world!"`; `find("hello world", false)` yields exactly one match
from leaf 1 at local offset 0 to leaf 3 at local offset 5, and
`find("Hello World", true)` yields no match. -/
theorem c8_hello_world :
    tf8.text = "Hello world!".toList ∧
    tf8.find "hello world".toList false = some [resHello] ∧
    tf8.find "Hello World".toList true = some [] := by decide

/-- C9: every reserved character is escaped (it becomes a backslash
escape, before any whitespace splitting, as `createSearchPattern`
applies `escape` first), and `find("3.14", false)` over
`"pi = 3.14 exactly"` matches exactly the literal `"3.14"` at flat
offsets 5-9, while the wildcard expansion `"3x14"` is not matched. -/
theorem c9_reserved_escape :
    List.Forall (fun c => escape [c] = ['\\', c]) reservedChars ∧
    escape "3.14".toList = "3\\.14".toList ∧
    createSearchPattern "3.14".toList = "3\\.14".toList ∧
    tfPi.find "3.14".toList false =
      some [⟨⟨1, "pi = 3.14 exactly".toList⟩, ⟨1, "pi = 3.14 exactly".toList⟩, 5, 9⟩] ∧
    tfPiX.find "3.14".toList false = some [] := by decide

/-- C4 helper: reserved characters are never whitespace. -/
theorem strip_not_reserved {c : Char} (h : isStripSpace c = true) :
    isReserved c = false := by
  by_contra hr
  rw [Bool.not_eq_false] at hr
  have hmem : c ∈ reservedChars := by simpa [isReserved] using hr
  fin_cases hmem <;> exact absurd h (by decide)

/-- C4 helper: `escape` distributes over concatenation. -/
theorem escape_append (a b : List Char) : escape (a ++ b) = escape a ++ escape b :=
  List.flatMap_append a b _

/-- C4 helper: `escape` leaves an all-whitespace string unchanged. -/
theorem escape_of_all_strip {w : List Char}
    (hw : ∀ c ∈ w, isStripSpace c = true) : escape w = w := by
  induction w with
  | nil => rfl
  | cons c w' ih =>
    have hc := strip_not_reserved (hw c (List.mem_cons_self c w'))
    rw [escape, List.flatMap_cons, if_neg (by simp [hc])]
    have ih2 := ih fun d hd => hw d (List.mem_cons_of_mem c hd)
    rw [escape] at ih2
    rw [ih2, List.singleton_append]

/-- C4 helper: `dropWhile` is the identity when the head fails the
predicate. -/
theorem dropWhile_clean {p : Char → Bool} {l : List Char}
    (h : ∀ c, l.head? = some c → p c = false) : l.dropWhile p = l := by
  cases l with
  | nil => rfl
  | cons c rest =>
    rw [List.dropWhile_cons, if_neg]
    simp [h c rfl]

/-- C4 helper: `dropWhile` swallows a fully satisfying left part. -/
theorem dropWhile_append_all {p : Char → Bool} {w l : List Char}
    (hw : ∀ c ∈ w, p c = true) : (w ++ l).dropWhile p = l.dropWhile p := by
  induction w with
  | nil => rfl
  | cons c w' ih =>
    rw [List.cons_append, List.dropWhile_cons, if_pos (hw c (List.mem_cons_self c w'))]
    exact ih fun d hd => hw d (List.mem_cons_of_mem c hd)

/-- C4 helper: removing the trailing run is the identity when the last
character is not whitespace. -/
theorem dropTrailingRun_clean {l : List Char}
    (h : ∀ c, l.getLast? = some c → isStripSpace c = false) :
    dropTrailingRun l = l := by
  unfold dropTrailingRun
  have hcl := dropWhile_clean (p := isStripSpace) (l := l.reverse)
    (fun c hc => h c (by rwa [List.head?_reverse] at hc))
  rw [hcl, List.reverse_reverse]

/-- C4 helper: removing the trailing run swallows exactly an appended
whitespace run. -/
theorem dropTrailingRun_append_all {w l : List Char}
    (hw : ∀ c ∈ w, isStripSpace c = true)
    (h : ∀ c, l.getLast? = some c → isStripSpace c = false) :
    dropTrailingRun (l ++ w) = l := by
  unfold dropTrailingRun
  rw [List.reverse_append]
  rw [dropWhile_append_all (fun c hc => hw c (List.mem_reverse.1 hc))]
  have hcl := dropWhile_clean (p := isStripSpace) (l := l.reverse)
    (fun c hc => h c (by rwa [List.head?_reverse] at hc))
  rw [hcl, List.reverse_reverse]

/-- C4 helper: `stripEnds` is the identity on a string with no leading
and no trailing whitespace. -/
theorem stripEnds_clean {l : List Char}
    (hh : ∀ c, l.head? = some c → isStripSpace c = false)
    (hl : ∀ c, l.getLast? = some c → isStripSpace c = false) :
    stripEnds l = l := by
  cases l with
  | nil => rfl
  | cons c rest =>
    have hc : isStripSpace c = false := hh c rfl
    simp only [stripEnds, List.head?_cons, hc, Bool.false_eq_true, if_false]
    exact dropTrailingRun_clean hl

/-- C4 helper: a non-empty whitespace run prepended to a clean string is
stripped entirely, and nothing else is. -/
theorem stripEnds_all_append {w l : List Char} (hwne : w ≠ [])
    (hw : ∀ c ∈ w, isStripSpace c = true)
    (hh : ∀ c, l.head? = some c → isStripSpace c = false) :
    stripEnds (w ++ l) = l := by
  cases w with
  | nil => exact absurd rfl hwne
  | cons c w' =>
    have hc := hw c (List.mem_cons_self c w')
    simp only [List.cons_append, stripEnds, List.head?_cons, hc, if_true]
    rw [show c :: (w' ++ l) = (c :: w') ++ l from rfl]
    rw [dropWhile_append_all hw]
    exact dropWhile_clean hh

/-- C4 helper: a whitespace run appended to a string with a clean head
and tail is stripped entirely (via the trailing alternative). -/
theorem stripEnds_append_all {l w : List Char}
    (hw : ∀ c ∈ w, isStripSpace c = true)
    (hh : ∀ c, l.head? = some c → isStripSpace c = false)
    (hl : ∀ c, l.getLast? = some c → isStripSpace c = false) :
    stripEnds (l ++ w) = l := by
  cases l with
  | nil =>
    rw [List.nil_append]
    cases w with
    | nil => rfl
    | cons c w' =>
      have hc := hw c (List.mem_cons_self c w')
      simp only [stripEnds, List.head?_cons, hc, if_true]
      have hall := dropWhile_append_all (l := ([] : List Char)) hw
      simpa using hall
  | cons d t =>
    have hd : isStripSpace d = false := hh d rfl
    simp only [List.cons_append, stripEnds, List.head?_cons, hd,
      Bool.false_eq_true, if_false]
    exact dropTrailingRun_append_all hw hl

/-- C4 helper: escaping preserves a clean head. -/
theorem escape_head_clean {p : List Char}
    (hh : ∀ c, p.head? = some c → isStripSpace c = false) :
    ∀ c, (escape p).head? = some c → isStripSpace c = false := by
  cases p with
  | nil => intro c h; simp [escape] at h
  | cons c0 rest =>
    intro c h
    by_cases hr : isReserved c0
    · have he : escape (c0 :: rest) = '\\' :: c0 :: escape rest := by
        rw [escape, List.flatMap_cons, if_pos (by simp [hr])]
        rfl
      rw [he, List.head?_cons] at h
      injection h with h2
      subst h2
      decide
    · have he : escape (c0 :: rest) = c0 :: escape rest := by
        rw [escape, List.flatMap_cons, if_neg (by simp [hr])]
        rfl
      rw [he, List.head?_cons] at h
      injection h with h2
      subst h2
      exact hh c0 rfl

/-- C4 helper: escaping preserves a clean last character. -/
theorem escape_getLast_clean {p : List Char}
    (hl : ∀ c, p.getLast? = some c → isStripSpace c = false) :
    ∀ c, (escape p).getLast? = some c → isStripSpace c = false := by
  rcases List.eq_nil_or_concat p with hp | ⟨l, a, hp⟩
  · subst hp; intro c h; simp [escape] at h
  · rw [List.concat_eq_append] at hp
    subst hp
    intro c h
    rw [escape_append] at h
    have hlast : isStripSpace a = false := hl a (List.getLast?_concat l)
    by_cases hr : isReserved a
    · have he : escape [a] = ['\\', a] := by
        rw [escape, List.flatMap_cons, if_pos (by simp [hr])]
        rfl
      rw [he, show escape l ++ ['\\', a] = (escape l ++ ['\\']) ++ [a] from by simp,
        List.getLast?_concat] at h
      injection h with h2
      subst h2
      exact hlast
    · have he : escape [a] = [a] := by
        rw [escape, List.flatMap_cons, if_neg (by simp [hr])]
        rfl
      rw [he, List.getLast?_concat] at h
      injection h with h2
      subst h2
      exact hlast

/-- C4 counterexample: for the phrase `" a "` (leading and trailing
whitespace) the strip regex - having no `g` flag - removes only the
leading run, so the built pattern still ends with the whitespace joiner
and differs from the pattern of `"a"`; consequently `find(" a ")` finds
nothing in the one-leaf text `"a"` while `find("a")` does. -/
theorem c4_counterexample :
    createSearchPattern " a ".toList ≠ createSearchPattern "a".toList ∧
    createSearchPattern " a ".toList = "a[\\s\\u00A0]+".toList ∧
    tfA.find " a ".toList false = some [] ∧
    tfA.find "a".toList false =
      some [⟨⟨1, "a".toList⟩, ⟨1, "a".toList⟩, 0, 1⟩] := by decide

/-- C4 (amended): pattern building strips only the first whitespace run
the strip regex finds: prepending whitespace to a phrase with clean ends
leaves the pattern unchanged, and so does appending whitespace to such a
phrase, but not both at once (the counterexample): with both, only the
leading run is removed. -/
theorem c4_amended (w p : List Char)
    (hw : ∀ c ∈ w, isStripSpace c = true)
    (hh : ∀ c, p.head? = some c → isStripSpace c = false)
    (hl : ∀ c, p.getLast? = some c → isStripSpace c = false) :
    createSearchPattern (w ++ p) = createSearchPattern p ∧
    createSearchPattern (p ++ w) = createSearchPattern p := by
  have hep_h := escape_head_clean hh
  have hep_l := escape_getLast_clean hl
  have hwid : escape w = w := escape_of_all_strip hw
  constructor
  · unfold createSearchPattern
    rw [escape_append, hwid]
    rcases eq_or_ne w [] with rfl | hwne
    · rw [List.nil_append]
    · rw [stripEnds_all_append hwne hw hep_h, stripEnds_clean hep_h hep_l]
  · unfold createSearchPattern
    rw [escape_append, hwid, stripEnds_append_all hw hep_h hep_l,
      stripEnds_clean hep_h hep_l]

/-- C4 witness: prepending or appending a space to `"a"` alone does not
change the built pattern. -/
theorem c4_amended_witness :
    createSearchPattern ([' '] ++ "a".toList) = createSearchPattern "a".toList ∧
    createSearchPattern ("a".toList ++ [' ']) = createSearchPattern "a".toList :=
  c4_amended [' '] "a".toList (by decide)
    (by
      intro c hc
      have h2 : some 'a' = some c := hc
      injection h2 with h3
      subst h3
      decide)
    (by
      intro c hc
      have h2 : some 'a' = some c := hc
      injection h2 with h3
      subst h3
      decide)

/-- C10: every match resolved by `find` over any tree, for a phrase
whose built pattern is non-empty, reports local offsets within its
fragments' own text: `0 ≤ startOffset ≤ startContainer length - 1` and
`1 ≤ endOffset ≤ endContainer length`. -/
theorem c10_offsets_in_bounds (root : DomNode) (phrase : List Char) (cs : Bool)
    (ms : List RangeInfo) (m : RangeInfo)
    (hp : createSearchPattern phrase ≠ [])
    (hf : (collectTextNodes root).find phrase cs = some ms)
    (hm : m ∈ ms) :
    0 ≤ m.startOffset ∧
    m.startOffset ≤ (m.startContainer.nodeValue.length : Int) - 1 ∧
    1 ≤ m.endOffset ∧
    m.endOffset ≤ (m.endContainer.nodeValue.length : Int) := by
  obtain ⟨hch, _⟩ := collectTextNodes_inv root
  unfold TextFinder.find at hf
  cases hpp : parsePattern (createSearchPattern phrase) with
  | none => rw [hpp] at hf; exact Option.noConfusion hf
  | some atoms =>
    rw [hpp] at hf
    have hanil : atoms ≠ [] := parsePattern_ne_nil hpp hp
    obtain ⟨q, hqmem, hcr⟩ := resolveAll_mem hf m hm
    obtain ⟨s, e⟩ := q
    rw [findRanges] at hqmem
    obtain ⟨_, hsle, hmt⟩ := findLoop_mem hqmem
    obtain ⟨hse1, hee, hlt⟩ := matchTokens_bounds hsle hmt
    have hslt : s < e := hlt hanil
    unfold computeRange at hcr
    cases hgs : getInfo (collectTextNodes root) (s : Int) with
    | none => rw [hgs] at hcr; exact Option.noConfusion hcr
    | some rs =>
      cases hge : getInfo (collectTextNodes root) ((e : Int) - 1) with
      | none => rw [hgs, hge] at hcr; exact Option.noConfusion hcr
      | some re2 =>
        rw [hgs, hge] at hcr
        obtain rfl := Option.some_injective _ hcr
        obtain ⟨b1, b2⟩ :=
          getInfo_some_bounds hch (by exact_mod_cast Nat.zero_le s) hgs
        obtain ⟨b3, b4⟩ := getInfo_some_bounds hch (by omega) hge
        refine ⟨?_, ?_, ?_, ?_⟩
        · show (0 : Int) ≤
            (s : Int) - (rs.characterInterval : Int) + (rs.node.nodeValue.length : Int)
          omega
        · show (s : Int) - (rs.characterInterval : Int) + (rs.node.nodeValue.length : Int) ≤
            (rs.node.nodeValue.length : Int) - 1
          omega
        · show (1 : Int) ≤
            (e : Int) - (re2.characterInterval : Int) + (re2.node.nodeValue.length : Int)
          omega
        · show (e : Int) - (re2.characterInterval : Int) + (re2.node.nodeValue.length : Int) ≤
            (re2.node.nodeValue.length : Int)
          omega

/-- C10 witness: the single match of `find("a", false)` over the leaf
`"ab"` reports offsets 0 and 1, within the fragment's two characters. -/
theorem c10_offsets_in_bounds_witness :
    0 ≤ resAB.startOffset ∧
    resAB.startOffset ≤ (resAB.startContainer.nodeValue.length : Int) - 1 ∧
    1 ≤ resAB.endOffset ∧
    resAB.endOffset ≤ (resAB.endContainer.nodeValue.length : Int) :=
  c10_offsets_in_bounds rootAB "a".toList false [resAB] resAB (by decide) (by decide)
    (List.mem_singleton.2 rfl)

/-- C7 helper: `takeWhile` takes exactly a satisfying left part when the
remainder starts with a failing character. -/
theorem takeWhile_all_append {p : Char → Bool} {w l : List Char}
    (hw : ∀ c ∈ w, p c = true)
    (hl : ∀ c, l.head? = some c → p c = false) :
    (w ++ l).takeWhile p = w := by
  induction w with
  | nil =>
    rw [List.nil_append]
    cases l with
    | nil => rfl
    | cons d l' => rw [List.takeWhile_cons, if_neg (by simp [hl d rfl])]
  | cons c w' ih =>
    rw [List.cons_append, List.takeWhile_cons, if_pos (hw c (List.mem_cons_self c w'))]
    rw [ih fun d hd => hw d (List.mem_cons_of_mem c hd)]

/-- C7 helper: the scan finds nothing when no position at or after `pos`
matches. -/
theorem findFromAux_none {ci : Bool} {cs : List Char} {atoms : List PatAtom} :
    ∀ {k pos : Nat}, (∀ q, pos ≤ q → matchTokens ci cs atoms q = none) →
      findFromAux ci cs atoms k pos = none := by
  intro k
  induction k with
  | zero => intro pos _; rfl
  | succ k ih =>
    intro pos h
    unfold findFromAux
    rw [h pos (Nat.le_refl pos)]
    exact ih fun q hq => h q (by omega)

/-- Step lemma: a matching literal advances the position by one. -/
theorem matchTokens_lit {ci : Bool} {cs : List Char} {c c2 : Char}
    {atoms : List PatAtom} {pos : Nat}
    (hg : cs[pos]? = some c2) (hm : charMatch ci c c2 = true) :
    matchTokens ci cs (.lit c :: atoms) pos = matchTokens ci cs atoms (pos + 1) := by
  simp [matchTokens, hg, hm]

/-- Step lemma: a mismatching literal fails the match. -/
theorem matchTokens_lit_mismatch {ci : Bool} {cs : List Char} {c c2 : Char}
    {atoms : List PatAtom} {pos : Nat}
    (hg : cs[pos]? = some c2) (hm : charMatch ci c c2 = false) :
    matchTokens ci cs (.lit c :: atoms) pos = none := by
  simp [matchTokens, hg, hm]

/-- Step lemma: a literal fails past the end of the text. -/
theorem matchTokens_lit_none {ci : Bool} {cs : List Char} {c : Char}
    {atoms : List PatAtom} {pos : Nat} (hg : cs[pos]? = none) :
    matchTokens ci cs (.lit c :: atoms) pos = none := by
  simp [matchTokens, hg]

/-- Step lemma: a non-empty whitespace run is consumed greedily. -/
theorem matchTokens_ws {ci : Bool} {cs : List Char} {atoms : List PatAtom}
    {pos : Nat} (h : wsRunLen cs pos ≠ 0) :
    matchTokens ci cs (.wsPlus :: atoms) pos =
      matchTokens ci cs atoms (pos + wsRunLen cs pos) := by
  simp [matchTokens, h]

/-- C7 helper: a whitespace character never matches the literal `a`,
even case-insensitively. -/
theorem ws_not_a {c : Char} (h : isMatchSpace c = true) :
    charMatch true 'a' c = false := by
  have hc : ¬ (97 ≤ c.toNat ∧ c.toNat ≤ 122) := by
    simp only [isMatchSpace, isSpaceJS, Bool.or_eq_true, decide_eq_true_eq,
      Bool.and_eq_true] at h
    omega
  have hcanc : canonChar c = c := by unfold canonChar; rw [if_neg hc]
  have hcana : canonChar 'a' = 'A' := by decide
  show (canonChar 'a' == canonChar c) = false
  rw [hcana, hcanc, beq_eq_false_iff_ne]
  intro heq
  rw [← heq] at h
  exact absurd h (by decide)

/-- C7: for every non-empty run `w` of whitespace characters (ordinary
or non-breaking space, of any length), searching for the phrase `"a b"`
in the one-leaf text `'a' :: w ++ ['b']` finds exactly one match
covering the whole text: the single space of the phrase matches the
entire run, so all whitespace runs behave identically (the witness
instantiates the three spec texts). -/
theorem c7_whitespace_runs (w : List Char) (hne : w ≠ [])
    (hws : ∀ c ∈ w, isMatchSpace c = true) :
    (collectTextNodes (rootRun w)).find "a b".toList false =
      some [⟨⟨1, 'a' :: (w ++ ['b'])⟩, ⟨1, 'a' :: (w ++ ['b'])⟩, 0,
        (w.length : Int) + 2⟩] := by
  have htlen : ('a' :: (w ++ ['b'])).length = w.length + 2 := by simp
  have hlw : w.length ≠ 0 := fun h => hne (List.length_eq_zero.1 h)
  have hfind : collectTextNodes (rootRun w) =
      ⟨'a' :: (w ++ ['b']),
        [⟨⟨1, 'a' :: (w ++ ['b'])⟩, ('a' :: (w ++ ['b'])).length⟩]⟩ := by
    simp [collectTextNodes, rootRun, childNodesOf, collectChildren, collectStep,
      NodeList.hasChildNodes]
  have hpat : parsePattern (createSearchPattern "a b".toList) =
      some [.lit 'a', .wsPlus, .lit 'b'] := by decide
  have hget0 : ('a' :: (w ++ ['b']))[0]? = some 'a' := List.getElem?_cons_zero
  have hrun : wsRunLen ('a' :: (w ++ ['b'])) 1 = w.length := by
    unfold wsRunLen
    rw [show ('a' :: (w ++ ['b'])).drop 1 = w ++ ['b'] from rfl]
    rw [takeWhile_all_append hws (fun c hc => by
      have h2 : some 'b' = some c := hc
      injection h2 with h3
      subst h3
      decide)]
  have hgetb : ('a' :: (w ++ ['b']))[1 + w.length]? = some 'b' := by
    rw [show 1 + w.length = w.length + 1 from by omega, List.getElem?_cons_succ,
      List.getElem?_append_right (Nat.le_refl w.length)]
    simp
  have hm0 : matchTokens true ('a' :: (w ++ ['b'])) [.lit 'a', .wsPlus, .lit 'b'] 0 =
      some (w.length + 2) := by
    rw [matchTokens_lit hget0 (by decide)]
    rw [show (0 : Nat) + 1 = 1 from rfl]
    rw [matchTokens_ws (by rw [hrun]; exact hlw)]
    rw [hrun]
    rw [matchTokens_lit hgetb (by decide)]
    show some (1 + w.length + 1) = some (w.length + 2)
    congr 1
    omega
  have hnone : ∀ q, 1 ≤ q →
      matchTokens true ('a' :: (w ++ ['b'])) [.lit 'a', .wsPlus, .lit 'b'] q = none := by
    intro q hq
    by_cases hq1 : q ≤ w.length
    · obtain ⟨j, rfl⟩ : ∃ j, q = j + 1 := ⟨q - 1, by omega⟩
      have hj : j < w.length := by omega
      have hget : ('a' :: (w ++ ['b']))[j + 1]? = some (w[j]) := by
        rw [List.getElem?_cons_succ,
          show (w ++ ['b'])[j]? = w[j]? from by rw [List.getElem?_append]; simp [hj]]
        exact List.getElem?_eq_getElem hj
      have hwsj : isMatchSpace (w[j]) = true := hws _ (List.getElem_mem hj)
      exact matchTokens_lit_mismatch hget (ws_not_a hwsj)
    · by_cases hq2 : q = 1 + w.length
      · subst hq2
        exact matchTokens_lit_mismatch hgetb (by decide)
      · have hge : ('a' :: (w ++ ['b'])).length ≤ q := by omega
        exact matchTokens_lit_none (List.getElem?_eq_none hge)
  have hf0 : findFrom true ('a' :: (w ++ ['b'])) [.lit 'a', .wsPlus, .lit 'b'] 0 =
      some (0, w.length + 2) := by
    unfold findFrom
    rw [show ('a' :: (w ++ ['b'])).length + 1 - 0 = (w.length + 2) + 1 from by omega]
    unfold findFromAux
    rw [hm0]
  have hloop1 : findLoop true ('a' :: (w ++ ['b'])) [.lit 'a', .wsPlus, .lit 'b']
      (('a' :: (w ++ ['b'])).length + 1) 1 = [] := by
    unfold findLoop
    rw [show findFrom true ('a' :: (w ++ ['b'])) [.lit 'a', .wsPlus, .lit 'b'] 1 = none from
      findFromAux_none fun q hq => hnone q hq]
  have hranges : findRanges [.lit 'a', .wsPlus, .lit 'b'] true ('a' :: (w ++ ['b'])) =
      [(0, w.length + 2)] := by
    unfold findRanges
    rw [show ('a' :: (w ++ ['b'])).length + 2 =
      (('a' :: (w ++ ['b'])).length + 1) + 1 from by omega]
    unfold findLoop
    rw [hf0]
    show (0, w.length + 2) :: findLoop true ('a' :: (w ++ ['b']))
      [.lit 'a', .wsPlus, .lit 'b'] (('a' :: (w ++ ['b'])).length + 1) (0 + 1) =
      [(0, w.length + 2)]
    rw [show (0 : Nat) + 1 = 1 from rfl, hloop1]
  have hcr : computeRange
      ⟨'a' :: (w ++ ['b']),
        [⟨⟨1, 'a' :: (w ++ ['b'])⟩, ('a' :: (w ++ ['b'])).length⟩]⟩
      ((0 : Nat) : Int) ((w.length + 2 : Nat) : Int) =
      some ⟨⟨1, 'a' :: (w ++ ['b'])⟩, ⟨1, 'a' :: (w ++ ['b'])⟩, 0,
        (w.length : Int) + 2⟩ := by
    unfold computeRange getInfo getInfoList
    rw [if_pos (show ((0 : Nat) : Int) <
        ((⟨⟨1, 'a' :: (w ++ ['b'])⟩, ('a' :: (w ++ ['b'])).length⟩ :
          NodeInfo).characterInterval : Int) from by
      show ((0 : Nat) : Int) < (('a' :: (w ++ ['b'])).length : Int)
      omega)]
    rw [if_pos (show ((w.length + 2 : Nat) : Int) - 1 <
        ((⟨⟨1, 'a' :: (w ++ ['b'])⟩, ('a' :: (w ++ ['b'])).length⟩ :
          NodeInfo).characterInterval : Int) from by
      show ((w.length + 2 : Nat) : Int) - 1 < (('a' :: (w ++ ['b'])).length : Int)
      rw [htlen]
      omega)]
    show some (RangeInfo.mk ⟨1, 'a' :: (w ++ ['b'])⟩ ⟨1, 'a' :: (w ++ ['b'])⟩
        (((0 : Nat) : Int) - (('a' :: (w ++ ['b'])).length : Int) +
          (('a' :: (w ++ ['b'])).length : Int))
        (((w.length + 2 : Nat) : Int) - (('a' :: (w ++ ['b'])).length : Int) +
          (('a' :: (w ++ ['b'])).length : Int))) =
      some (RangeInfo.mk ⟨1, 'a' :: (w ++ ['b'])⟩ ⟨1, 'a' :: (w ++ ['b'])⟩ 0
        ((w.length : Int) + 2))
    rw [show (((0 : Nat) : Int) - (('a' :: (w ++ ['b'])).length : Int) +
        (('a' :: (w ++ ['b'])).length : Int)) = (0 : Int) from by omega]
    rw [show (((w.length + 2 : Nat) : Int) - (('a' :: (w ++ ['b'])).length : Int) +
        (('a' :: (w ++ ['b'])).length : Int)) = ((w.length : Int) + 2) from by
      push_cast
      omega]
  have hresolve : resolveAll
      ⟨'a' :: (w ++ ['b']),
        [⟨⟨1, 'a' :: (w ++ ['b'])⟩, ('a' :: (w ++ ['b'])).length⟩]⟩
      [(0, w.length + 2)] =
      some [⟨⟨1, 'a' :: (w ++ ['b'])⟩, ⟨1, 'a' :: (w ++ ['b'])⟩, 0,
        (w.length : Int) + 2⟩] := by
    unfold resolveAll
    rw [hcr]
    rfl
  unfold TextFinder.find
  rw [hfind, hpat]
  show resolveAll
    ⟨'a' :: (w ++ ['b']),
      [⟨⟨1, 'a' :: (w ++ ['b'])⟩, ('a' :: (w ++ ['b'])).length⟩]⟩
    (findRanges [.lit 'a', .wsPlus, .lit 'b'] (!false) ('a' :: (w ++ ['b']))) =
    some [⟨⟨1, 'a' :: (w ++ ['b'])⟩, ⟨1, 'a' :: (w ++ ['b'])⟩, 0,
      (w.length : Int) + 2⟩]
  rw [show (!false) = true from rfl, hranges, hresolve]

/-- C7 witness: the three spec texts - `'a'` and `'b'` separated by
three spaces, by one non-breaking space, and by two non-breaking spaces
plus a space - each produce exactly one match covering the whole text. -/
theorem c7_whitespace_runs_witness :
    ((collectTextNodes (rootRun [' ', ' ', ' '])).find "a b".toList false =
      some [⟨⟨1, 'a' :: ([' ', ' ', ' '] ++ ['b'])⟩,
            ⟨1, 'a' :: ([' ', ' ', ' '] ++ ['b'])⟩, 0,
            (([' ', ' ', ' '] : List Char).length : Int) + 2⟩]) ∧
    ((collectTextNodes (rootRun ['\u00A0'])).find "a b".toList false =
      some [⟨⟨1, 'a' :: (['\u00A0'] ++ ['b'])⟩,
            ⟨1, 'a' :: (['\u00A0'] ++ ['b'])⟩, 0,
            ((['\u00A0'] : List Char).length : Int) + 2⟩]) ∧
    ((collectTextNodes (rootRun ['\u00A0', '\u00A0', ' '])).find "a b".toList false =
      some [⟨⟨1, 'a' :: (['\u00A0', '\u00A0', ' '] ++ ['b'])⟩,
            ⟨1, 'a' :: (['\u00A0', '\u00A0', ' '] ++ ['b'])⟩, 0,
            ((['\u00A0', '\u00A0', ' '] : List Char).length : Int) + 2⟩]) :=
  ⟨c7_whitespace_runs [' ', ' ', ' '] (by decide) (by decide),
   c7_whitespace_runs ['\u00A0'] (by decide) (by decide),
   c7_whitespace_runs ['\u00A0', '\u00A0', ' '] (by decide) (by decide)⟩
